import Mathlib

/-!
Verification of the BlobRepo engine (blobrepo/src/repo.rs), the blobstore
trait (eden/mononoke/blobstore/src/lib.rs) and the revlog importer
(cmds/blobimport.rs) against the natural-language specification.

The Rust code is shallowly embedded: pure control flow is translated into
Lean functions, the typed indices (filenodes, changesets) and the blobstore
are modelled as explicit maps or association lists, and the asynchronous
commit pipeline of `create_changeset` is modelled twice, once as a
sequential run-to-completion state transformer (for value and frame
properties) and once as an event dependency graph whose valid schedules are
the linearisations admitted by the futures combinators (for ordering
properties).  Fallible operations return `Except ErrorKind`.
-/

deriving instance DecidableEq for Except

namespace Eden

/-- Node hashes (20-byte NodeHash in mercurial_types) are modelled as
naturals; only identity matters for the verified claims. -/
abbrev NodeHash := Nat

/-- RepoPath is modelled as an opaque identifier; only identity matters. -/
abbrev RepoPath := Nat

/-- Blobstore keys, as character lists (the Rust code builds them with
format strings). -/
abbrev BlobKey := List Char

/-- Raw byte strings stored in the blobstore. -/
abbrev Bytes := List Nat

/-- Error kinds of blobrepo::errors (the crate is outside src/; the
constructors and payloads are those used by repo.rs and listed in the
spec, section 7). `Other` stands for opaque backend or upstream errors. -/
inductive ErrorKind where
  | MissingFilenode (path : RepoPath) (node : NodeHash)
  | ChangesetMissing (id : NodeHash)
  | ManifestMissing (id : NodeHash)
  | BadUploadBlob
  | SerializationFailed
  | ParentsFailed
  | InconsistentEntries
  | MissingRootManifest
  | NotFound (key : String)
  | Other
deriving DecidableEq, Repr

/-! ### Blobstore trait (src/eden/mononoke/blobstore/src/lib.rs)

`get` is abstracted as a map from keys to `Except` outcomes: a backend
error, or `Ok` of the optional value (absence is not an error).  The
default `is_present` is the literal translation of
`self.get(ctx, key).map(|opt| opt.is_some())`. -/

/-- A blobstore `get` oracle: what `get` resolves to for each key. -/
abbrev BlobstoreGet := String → Except ErrorKind (Option Bytes)

/-- Default implementation of `Blobstore::is_present`, translated from
`self.get(ctx, key).map(|opt| opt.is_some()).boxify()`. -/
def is_present (get : BlobstoreGet) (key : String) : Except ErrorKind Bool :=
  (get key).map Option.isSome

/-! ### Filenodes and changesets read operations (blobrepo/src/repo.rs) -/

/-- FilenodeInfo as used by repo.rs (the filenodes crate is outside src/;
the fields are the ones repo.rs reads: p1, p2, copyfrom, linknode). -/
structure FilenodeInfo where
  p1 : Option NodeHash
  p2 : Option NodeHash
  copyfrom : Option (RepoPath × NodeHash)
  linknode : NodeHash
deriving DecidableEq, Repr

/-- The filenodes index keyed by (path, node), as queried through
`self.filenodes.get_filenode(&path, &node, &self.repoid)` at a fixed
repo id. -/
abbrev FilenodesIndex := RepoPath → NodeHash → Option FilenodeInfo

/-- BlobRepo::get_parents: look up the filenode; absence becomes
`MissingFilenode(path, node)`, presence yields the (p1, p2) pair. -/
def get_parents (idx : FilenodesIndex) (path : RepoPath) (node : NodeHash) :
    Except ErrorKind (Option NodeHash × Option NodeHash) :=
  match idx path node with
  | none => Except.error (ErrorKind.MissingFilenode path node)
  | some fn => Except.ok (fn.p1, fn.p2)

/-- BlobRepo::get_linknode: absence becomes `MissingFilenode`, presence
yields the linknode. -/
def get_linknode (idx : FilenodesIndex) (path : RepoPath) (node : NodeHash) :
    Except ErrorKind NodeHash :=
  match idx path node with
  | none => Except.error (ErrorKind.MissingFilenode path node)
  | some fn => Except.ok fn.linknode

/-- BlobRepo::get_file_copy: absence becomes `MissingFilenode`, presence
yields the optional copyfrom pair (which may be `none`). -/
def get_file_copy (idx : FilenodesIndex) (path : RepoPath) (node : NodeHash) :
    Except ErrorKind (Option (RepoPath × NodeHash)) :=
  match idx path node with
  | none => Except.error (ErrorKind.MissingFilenode path node)
  | some fn => Except.ok fn.copyfrom

/-- A row of the changesets index, `changesets.get(repoid, cs)` at a fixed
repo id (the changesets crate is outside src/; repo.rs reads `gen` and the
parents). -/
structure ChangesetRow where
  gen : Nat
  parents : List NodeHash
deriving DecidableEq, Repr

/-- The changesets index at a fixed repo id. -/
abbrev ChangesetsIndex := NodeHash → Option ChangesetRow

/-- BlobRepo::changeset_exists: a pure lookup in the changesets index;
absence surfaces as the boolean `false`, never as an error. -/
def changeset_exists (idx : ChangesetsIndex) (cs : NodeHash) :
    Except ErrorKind Bool :=
  Except.ok (idx cs).isSome

/-- Result of `BlobChangeset::load(&self.blobstore, &chid)`: the decoded
changeset blob if present in the blobstore. -/
abbrev ChangesetLoad := NodeHash → Option Bytes

/-- BlobRepo::get_changeset_by_changesetid: load the changeset blob;
absence becomes `ChangesetMissing(id)`. -/
def get_changeset_by_changesetid (load : ChangesetLoad) (cs : NodeHash) :
    Except ErrorKind Bytes :=
  match load cs with
  | none => Except.error (ErrorKind.ChangesetMissing cs)
  | some c => Except.ok c

/-! ### Blobstore key layout and upload_entry (blobrepo/src/repo.rs) -/

/-- A run-time blobstore, an append-only association of keys to bytes
(appends model completed `put` calls). -/
abbrev Store := List (BlobKey × Bytes)

/-- Key prefix written by `format!("sha1-{}", blob_hash.sha1())` in
upload_entry. -/
def sha1Prefix : BlobKey := ['s', 'h', 'a', '1', '-']

/-- Content key of upload_entry: `sha1-<hex>`. -/
def uploadContentKey (hex : BlobKey) : BlobKey := sha1Prefix ++ hex

/-- Modelled from the spec: `get_node_key` lives in blobrepo/src/utils.rs,
which is not under src/; per the spec (sections 3 and 6) the
RawNodeRecord of a node is keyed under `node:<hex>`. -/
def get_node_key (hex : BlobKey) : BlobKey := ['n', 'o', 'd', 'e', ':'] ++ hex

/-- True on the sixteen lowercase hex digit characters. -/
def isHexDigit (c : Char) : Bool :=
  (decide ('0' ≤ c) && decide (c ≤ '9')) || (decide ('a' ≤ c) && decide (c ≤ 'f'))

/-- A key has exactly the form `sha1-<hex>`: the sha1 prefix followed by
hex digits only. -/
def isSha1DashKey (k : BlobKey) : Prop :=
  ∃ hex, (∀ c ∈ hex, isHexDigit c = true) ∧ k = sha1Prefix ++ hex

/-- A key has exactly the form `node:<hex>`: the node prefix followed by
hex digits only. -/
def isNodeColonKey (k : BlobKey) : Prop :=
  ∃ hex, (∀ c ∈ hex, isHexDigit c = true) ∧ k = get_node_key hex

/-- Input oracle for one upload_entry call.  The mercurial Blob, BlobNode
and bincode computations live outside src/, so each fallible derivation
performed by upload_entry is given by its outcome: `hashHex` is
`raw_content.hash()` (hex of the content sha1), `nodeHex` is
`BlobNode::new(raw_content, p1, p2).nodeid()`, `blobEntryOk` is whether
`BlobEntry::new` succeeds, `innerBytes` is `raw_content.into_inner()`,
and `serialized` is `bincode::serialize(&raw_node)`. -/
structure UploadInput where
  hashHex : Option BlobKey
  nodeHex : Option BlobKey
  blobEntryOk : Bool
  innerBytes : Option Bytes
  serialized : Option Bytes
deriving DecidableEq, Repr

/-- BlobRepo::upload_entry, translated from repo.rs in its source order:
hash the content (else `BadUploadBlob`), compute the node id (else
`BadUploadBlob`), build the BlobEntry (propagating its error), take the
content bytes (else `BadUploadBlob`), serialize the RawNodeBlob (else
`SerializationFailed`), and only in the success case hand back the two
puts — the blobstore put futures in the Rust code are lazy and are
dropped unpolled on every early `return Err`, so the error cases leave
the store untouched.  Returns the result (the node id hex on success)
and the store after the returned future has been awaited. -/
def upload_entry (u : UploadInput) (s : Store) : Except ErrorKind BlobKey × Store :=
  match u.hashHex with
  | none => (Except.error ErrorKind.BadUploadBlob, s)
  | some blobHash =>
  match u.nodeHex with
  | none => (Except.error ErrorKind.BadUploadBlob, s)
  | some nodeid =>
  if u.blobEntryOk = false then (Except.error ErrorKind.Other, s)
  else
  match u.innerBytes with
  | none => (Except.error ErrorKind.BadUploadBlob, s)
  | some bytes =>
  match u.serialized with
  | none => (Except.error ErrorKind.SerializationFailed, s)
  | some ser =>
    (Except.ok nodeid, s ++ [(uploadContentKey blobHash, bytes), (get_node_key nodeid, ser)])

/-! ### Importer copy_manifest_entry (cmds/blobimport.rs) -/

/-- Node key written by the importer: `format!("node:{}.bincode", hash)`. -/
def importNodeKey (hex : BlobKey) : BlobKey :=
  ['n', 'o', 'd', 'e', ':'] ++ hex ++ ['.', 'b', 'i', 'n', 'c', 'o', 'd', 'e']

/-- Blob key written by the importer: `format!("sha1:{}", nodeblob.blob)`. -/
def importBlobKey (hex : BlobKey) : BlobKey := ['s', 'h', 'a', '1', ':'] ++ hex

/-- Input oracle for one copy_manifest_entry call: the entry hash (hex),
the raw content if any (`get_raw_content().into_inner()`, whose absence
is the "missing blob data" error), the hex sha1 of those bytes, and the
bincode encoding of the NodeBlob record. -/
structure ImportEntryInput where
  hashHex : BlobKey
  rawContent : Option Bytes
  contentSha1Hex : BlobKey
  nodeblobBytes : Bytes
deriving DecidableEq, Repr

/-- copy_manifest_entry from cmds/blobimport.rs: fetch the raw content
(failing with "missing blob data" when absent), then put the NodeBlob
record under `node:<hex>.bincode` and the content under `sha1:<hex>`. -/
def copy_manifest_entry (e : ImportEntryInput) (s : Store) :
    Except ErrorKind Unit × Store :=
  match e.rawContent with
  | none => (Except.error ErrorKind.Other, s)
  | some bytes =>
    (Except.ok (),
      s ++ [(importNodeKey e.hashHex, e.nodeblobBytes),
            (importBlobKey e.contentSha1Hex, bytes)])

/-! ### create_changeset (blobrepo/src/repo.rs): sequential state model

The commit pipeline is a graph of futures.  The state model below runs it
in the run-to-completion schedule: every sub-future that the combinators
start is driven to its outcome, and the first error in combinator order is
the one surfaced.  The outcomes of the sub-futures whose bodies live in
repo_commit.rs (outside src/) are supplied as an oracle; the combinator
structure — what is joined with what, which effects land before which
check — is the part translated from repo.rs and is what the theorems are
about. -/

/-- A ChangesetInsert row, `ChangesetInsert { repo_id, cs_id, parents }`. -/
structure ChangesetInsert where
  repo_id : Nat
  cs_id : NodeHash
  parents : List NodeHash
deriving DecidableEq, Repr

/-- The reader-visible repository: blobstore contents, heads index,
filenodes index and changesets index. -/
structure RepoState where
  blobs : Store
  heads : List NodeHash
  filenodes : List FilenodeInfo
  changesets : List ChangesetInsert
deriving DecidableEq, Repr

/-- Modelled from the spec: ChangesetHandle (repo_commit.rs, not under
src/) is a pair of latched shared signals, `can_be_parent` carrying
`(cs_id, manifest_id)` and `completion` carrying the durable changeset
(section 4.6 of the spec). -/
structure ChangesetHandleModel where
  canBeParentResult : Except ErrorKind (NodeHash × NodeHash)
  completionResult : Except ErrorKind NodeHash
deriving DecidableEq, Repr

/-- Completion signal of an optional parent handle; an absent parent is
complete immediately. -/
def parent_completion : Option ChangesetHandleModel → Except ErrorKind Unit
  | none => Except.ok ()
  | some h => h.completionResult.map (fun _ => ())

/-- Modelled from the spec: extract_parents_complete (repo_commit.rs, not
under src/) awaits the completion futures of both supplied parents
(section 4.4 step 6); it errors iff some supplied parent's completion
resolved to an error. -/
def extract_parents_complete (p1 p2 : Option ChangesetHandleModel) :
    Except ErrorKind Unit :=
  (parent_completion p1).bind (fun _ => parent_completion p2)

/-- Oracle for one create_changeset call: the outcomes of the sub-futures
the pipeline in repo.rs composes.  `entryBlobs` are the blobstore puts
issued by process_entries for the root manifest and child entries;
`uploadEntriesResult` its outcome; `parentsDataResult` the outcome of
handle_parents; `changedFilesResult` of compute_changed_files;
`makeChangesetResult` of make_new_changeset; `csId`/`manifestId` the ids
of the new commit; `csBlobKey`/`csBlobBytes` the blobstore put performed
by `blobcs.save`; `saveResult`, `headsAddResult`, `finalizeResult` the
outcomes of the three joined finalization futures, `filenodeBatch` the
batch inserted by a successful finalize; `changesetsAddResult` the
outcome of `complete_changesets.add`, inserting
`ChangesetInsert repoId csId recordParents`. -/
structure CommitPipeline where
  entryBlobs : Store
  uploadEntriesResult : Except ErrorKind Unit
  parentsDataResult : Except ErrorKind Unit
  changedFilesResult : Except ErrorKind (List RepoPath)
  makeChangesetResult : Except ErrorKind Unit
  csId : NodeHash
  manifestId : NodeHash
  csBlobKey : BlobKey
  csBlobBytes : Bytes
  saveResult : Except ErrorKind Unit
  headsAddResult : Except ErrorKind Unit
  finalizeResult : Except ErrorKind Unit
  filenodeBatch : List FilenodeInfo
  changesetsAddResult : Except ErrorKind Unit
  repoId : Nat
  recordParents : List NodeHash
deriving DecidableEq, Repr

/-- Combined outcome of the stages before the finalization fence:
`upload_entries.join(parents_data)` followed by compute_changed_files and
make_new_changeset. -/
def pre_fence_result (o : CommitPipeline) : Except ErrorKind Unit :=
  o.uploadEntriesResult.bind (fun _ =>
    o.parentsDataResult.bind (fun _ =>
      (o.changedFilesResult.map (fun _ => ())).bind (fun _ =>
        o.makeChangesetResult)))

/-- Combined outcome of
`blobcs.save(blobstore).join(heads.add(&cs_id)).join(entry_processor.finalize(..))`. -/
def fence_result (o : CommitPipeline) : Except ErrorKind Unit :=
  o.saveResult.bind (fun _ => o.headsAddResult.bind (fun _ => o.finalizeResult))

/-- State effects of the finalization fence: the three joined futures run
concurrently, so in the run-to-completion schedule each branch's effect
lands iff that branch succeeded, independent of the two others. -/
def fence_state (o : CommitPipeline) (s : RepoState) : RepoState :=
  { s with
    blobs := s.blobs ++ (if o.saveResult.isOk then [(o.csBlobKey, o.csBlobBytes)] else []),
    heads := s.heads ++ (if o.headsAddResult.isOk then [o.csId] else []),
    filenodes := s.filenodes ++ (if o.finalizeResult.isOk then o.filenodeBatch else []) }

/-- Result of one create_changeset run: the final reader-visible state and
the two latched signals of the returned handle. -/
structure CommitRun where
  state : RepoState
  canBeParent : Except ErrorKind (NodeHash × NodeHash)
  completion : Except ErrorKind NodeHash
deriving DecidableEq, Repr

/-- BlobRepo::create_changeset, the combinator structure of repo.rs in the
run-to-completion schedule: entry uploads put their blobs; the pre-fence
stages run; then save, heads.add and finalize run joined; after the join
succeeds `signal_parent_ready.send((cs_id, manifest_id))` fires the
can_be_parent signal; the changeset future is then joined with
parents_complete (whose error is mapped to `ParentsFailed`); only in the
and_then after that join is the ChangesetInsert added to the changesets
index, after which the completion signal resolves.  On any error both
signals carry the error (the oneshot sender is dropped and the shared
completion future resolves to the error). -/
def create_changeset (p1 p2 : Option ChangesetHandleModel) (o : CommitPipeline)
    (s0 : RepoState) : CommitRun :=
  let s1 : RepoState := { s0 with blobs := s0.blobs ++ o.entryBlobs }
  match pre_fence_result o with
  | Except.error e => ⟨s1, Except.error e, Except.error e⟩
  | Except.ok _ =>
    let s4 := fence_state o s1
    match fence_result o with
    | Except.error e => ⟨s4, Except.error e, Except.error e⟩
    | Except.ok _ =>
      let cbp : Except ErrorKind (NodeHash × NodeHash) :=
        Except.ok (o.csId, o.manifestId)
      match extract_parents_complete p1 p2 with
      | Except.error _ => ⟨s4, cbp, Except.error ErrorKind.ParentsFailed⟩
      | Except.ok _ =>
        match o.changesetsAddResult with
        | Except.error e => ⟨s4, cbp, Except.error e⟩
        | Except.ok _ =>
          ⟨{ s4 with changesets := s4.changesets ++ [⟨o.repoId, o.csId, o.recordParents⟩] },
            cbp, Except.ok o.csId⟩

/-- Sample handle of a parent whose commit failed: its completion signal
resolved to an error. -/
def handleFailed : ChangesetHandleModel :=
  ⟨Except.ok (3, 4), Except.error ErrorKind.Other⟩

/-- Sample oracle in which every sub-future of the pipeline itself
succeeds. -/
def okPipeline : CommitPipeline :=
  { entryBlobs := [(['k'], [9])]
    uploadEntriesResult := Except.ok ()
    parentsDataResult := Except.ok ()
    changedFilesResult := Except.ok []
    makeChangesetResult := Except.ok ()
    csId := 7
    manifestId := 9
    csBlobKey := ['n']
    csBlobBytes := [5]
    saveResult := Except.ok ()
    headsAddResult := Except.ok ()
    finalizeResult := Except.ok ()
    filenodeBatch := [⟨none, none, none, 7⟩]
    changesetsAddResult := Except.ok ()
    repoId := 0
    recordParents := [3] }

/-! ### create_changeset: event dependency graph

For the ordering claims, a run of the pipeline is abstracted as the set of
eleven atomic events below; `csDep a b` records the happens-before edges
induced by the futures combinators of repo.rs (`join` starts branches
concurrently, `and_then`/`map` sequence).  A valid schedule is any
linearisation of the events respecting those edges; every execution of the
successfully completing pipeline corresponds to one. -/

inductive CsEvent where
  | uploadEntries
  | parentsData
  | changedFiles
  | makeChangeset
  | saveBlob
  | headsAdd
  | finalizeFilenodes
  | signalCanBeParent
  | parentsComplete
  | recordInsert
  | signalCompletion
deriving DecidableEq, Repr, Fintype

/-- Happens-before edges of the create_changeset combinator graph:
changed-files derivation follows the join of entry uploads and parents
data; make_new_changeset follows it; the three fence futures are started
after the changeset blob is made; the parent-ready signal is sent in the
map after the triple join; the record insert is in the and_then after the
join of the changeset future and parents_complete; the completion signal
resolves after the record insert. -/
def csDep : CsEvent → CsEvent → Bool
  | CsEvent.uploadEntries, CsEvent.changedFiles => true
  | CsEvent.parentsData, CsEvent.changedFiles => true
  | CsEvent.changedFiles, CsEvent.makeChangeset => true
  | CsEvent.makeChangeset, CsEvent.saveBlob => true
  | CsEvent.makeChangeset, CsEvent.headsAdd => true
  | CsEvent.makeChangeset, CsEvent.finalizeFilenodes => true
  | CsEvent.saveBlob, CsEvent.signalCanBeParent => true
  | CsEvent.headsAdd, CsEvent.signalCanBeParent => true
  | CsEvent.finalizeFilenodes, CsEvent.signalCanBeParent => true
  | CsEvent.signalCanBeParent, CsEvent.recordInsert => true
  | CsEvent.parentsComplete, CsEvent.recordInsert => true
  | CsEvent.recordInsert, CsEvent.signalCompletion => true
  | _, _ => false

/-- A schedule of a completed run: a linearisation containing every event
and respecting every happens-before edge. -/
abbrev ValidSchedule (s : List CsEvent) : Prop :=
  (∀ e : CsEvent, e ∈ s) ∧
  (∀ a b : CsEvent, csDep a b = true → s.indexOf a < s.indexOf b)

/-- One concrete admissible schedule of the pipeline. -/
def pipelineSchedule : List CsEvent :=
  [CsEvent.uploadEntries, CsEvent.parentsData, CsEvent.changedFiles,
   CsEvent.makeChangeset, CsEvent.saveBlob, CsEvent.headsAdd,
   CsEvent.finalizeFilenodes, CsEvent.signalCanBeParent,
   CsEvent.parentsComplete, CsEvent.recordInsert, CsEvent.signalCompletion]

/-! ### BlobChangesetStream (blobrepo/src/repo.rs) -/

/-- The commit graph stored in the repo: each stored changeset id with the
parent list its loaded changeset reports (`cs.parents()`). -/
abbrev CommitGraph := List (NodeHash × List NodeHash)

/-- The ids having a stored changeset. -/
def graphKeys (repo : CommitGraph) : Finset NodeHash :=
  (repo.map Prod.fst).toFinset

/-- BlobChangesetStream::poll as a recursive traversal: the `heads` stream
is the frontier list; in state Idle the next frontier id is pulled — an
already seen id is discarded, a new id is inserted into `seen` and its
changeset loaded (an absent changeset errors the stream with
`ChangesetMissing`, through get_changeset_by_changesetid); when the load
completes the parents are appended after the existing frontier tail
(`heads.chain(stream::iter_ok(parents))`) and the id is yielded. -/
def bcsRun (repo : CommitGraph) (frontier : List NodeHash) (seen : Finset NodeHash) :
    Except ErrorKind (List NodeHash) :=
  match frontier with
  | [] => Except.ok []
  | next :: rest =>
    if hseen : next ∈ seen then bcsRun repo rest seen
    else
      match hl : repo.lookup next with
      | none => Except.error (ErrorKind.ChangesetMissing next)
      | some ps =>
        (bcsRun repo (rest ++ ps) (insert next seen)).map (fun out => next :: out)
termination_by (((graphKeys repo).filter (fun k => k ∉ seen)).card, frontier.length)
decreasing_by
  · exact Prod.Lex.right _ (Nat.lt_succ_self _)
  · apply Prod.Lex.left
    have hmem : ∀ l : CommitGraph, l.lookup next = some ps → (next, ps) ∈ l := by
      intro l
      induction l with
      | nil => intro h; simp [List.lookup] at h
      | cons hd tl ih =>
        obtain ⟨k, b⟩ := hd
        intro h
        rw [List.lookup] at h
        cases hk : (next == k) with
        | false =>
          rw [hk] at h
          exact List.mem_cons_of_mem _ (ih h)
        | true =>
          rw [hk] at h
          cases h
          have hke : next = k := by simpa using hk
          rw [hke]
          exact List.mem_cons_self _ _
    have hkey : next ∈ graphKeys repo := by
      have h1 := hmem repo hl
      simp only [graphKeys, List.mem_toFinset, List.mem_map]
      exact ⟨(next, ps), h1, rfl⟩
    apply Finset.card_lt_card
    have hsub : (graphKeys repo).filter (fun k => k ∉ insert next seen) ⊆
        (graphKeys repo).filter (fun k => k ∉ seen) := by
      intro x hx
      simp only [Finset.mem_filter, Finset.mem_insert] at hx ⊢
      exact ⟨hx.1, fun hxs => hx.2 (Or.inr hxs)⟩
    refine (Finset.ssubset_iff_of_subset hsub).mpr ⟨next, ?_, ?_⟩
    · simp only [Finset.mem_filter]
      exact ⟨hkey, hseen⟩
    · simp only [Finset.mem_filter, Finset.mem_insert]
      intro hcontra
      exact hcontra.2 (Or.inl trivial)

/-- Reachability along parent edges avoiding a blocked set: `x` is
reachable from `g` through a chain of loaded parents none of which is in
`seen`. -/
inductive ReachAvoid (repo : CommitGraph) (seen : Finset NodeHash) :
    NodeHash → NodeHash → Prop where
  | refl (g : NodeHash) : g ∉ seen → ReachAvoid repo seen g g
  | step (g p x : NodeHash) (ps : List NodeHash) : g ∉ seen →
      repo.lookup g = some ps → p ∈ ps → ReachAvoid repo seen p x →
      ReachAvoid repo seen g x

/-- One parent edge of the stored commit graph. -/
def parentEdge (repo : CommitGraph) (a b : NodeHash) : Prop :=
  ∃ ps, repo.lookup a = some ps ∧ b ∈ ps

/-- The transitive closure of parents from the initial heads (reflexive:
the heads themselves are reachable). -/
def reachableFromHeads (repo : CommitGraph) (heads : List NodeHash)
    (x : NodeHash) : Prop :=
  ∃ g ∈ heads, Relation.ReflTransGen (parentEdge repo) g x

/-- Decidable closure check: every initial head and every stored parent
reference has a stored changeset. -/
def keyClosed (repo : CommitGraph) (heads : List NodeHash) : Bool :=
  heads.all (fun g => (repo.lookup g).isSome) &&
    repo.all (fun pr => pr.2.all (fun p => (repo.lookup p).isSome))

end Eden

namespace Eden

/-- Claim C8: for every key and every blobstore using the default
`is_present`, the result is the same as asking whether `get` returns a
value: `Ok true` exactly when `get` yields `Ok (some v)`, `Ok false`
exactly when `get` yields `Ok none`, and errors pass through unchanged. -/
theorem is_present_eq_get_isSome (get : BlobstoreGet) (key : String) :
    (is_present get key = Except.ok true ↔ ∃ v, get key = Except.ok (some v)) ∧
    (is_present get key = Except.ok false ↔ get key = Except.ok none) ∧
    (∀ e, is_present get key = Except.error e ↔ get key = Except.error e) := by
  unfold is_present
  cases h : get key with
  | error e => simp [Except.map]
  | ok v => cases v <;> simp [Except.map]

/-- Witness for C8: a concrete blobstore on which `is_present` reports
absence as `Ok false`. -/
theorem is_present_eq_get_isSome_witness :
    is_present (fun _ => Except.ok none) "somekey" = Except.ok false :=
  (is_present_eq_get_isSome (fun _ => Except.ok none) "somekey").2.1.mpr rfl

/-- Claim C7: the filenode read operations (get_parents, get_linknode,
get_file_copy) fail exactly when the filenodes index has no entry for the
key, and then only with `MissingFilenode(path, node)`;
get_changeset_by_changesetid fails exactly when the changeset blob is
absent, and then only with `ChangesetMissing(id)`; changeset_exists never
fails and returns the presence boolean of the changesets index. -/
theorem read_ops_absence_behaviour (idx : FilenodesIndex) (load : ChangesetLoad)
    (cidx : ChangesetsIndex) (path : RepoPath) (node : NodeHash) (cs : NodeHash) :
    ((∃ e, get_parents idx path node = Except.error e) ↔ idx path node = none) ∧
    (∀ e, get_parents idx path node = Except.error e →
      e = ErrorKind.MissingFilenode path node) ∧
    ((∃ e, get_linknode idx path node = Except.error e) ↔ idx path node = none) ∧
    (∀ e, get_linknode idx path node = Except.error e →
      e = ErrorKind.MissingFilenode path node) ∧
    ((∃ e, get_file_copy idx path node = Except.error e) ↔ idx path node = none) ∧
    (∀ e, get_file_copy idx path node = Except.error e →
      e = ErrorKind.MissingFilenode path node) ∧
    ((∃ e, get_changeset_by_changesetid load cs = Except.error e) ↔ load cs = none) ∧
    (∀ e, get_changeset_by_changesetid load cs = Except.error e →
      e = ErrorKind.ChangesetMissing cs) ∧
    (changeset_exists cidx cs = Except.ok (cidx cs).isSome) := by
  unfold get_parents get_linknode get_file_copy get_changeset_by_changesetid
    changeset_exists
  cases idx path node <;> cases load cs <;> simp

/-- Witness for C7: on an empty filenodes index and an empty blobstore the
read operations fail with the missing-object errors, while
changeset_exists returns `Ok false`. -/
theorem read_ops_absence_behaviour_witness :
    get_parents (fun _ _ => none) 0 1 =
      Except.error (ErrorKind.MissingFilenode 0 1) ∧
    changeset_exists (fun _ => none) 2 = Except.ok false := by
  have h := read_ops_absence_behaviour (fun _ _ => none) (fun _ => none)
    (fun _ => none) 0 1 2
  refine ⟨?_, ?_⟩
  · obtain ⟨e, he⟩ := h.1.mpr rfl
    have := h.2.1 e he
    rw [this] at he
    exact he
  · exact h.2.2.2.2.2.2.2.2

/-- Claim C10: get_file_copy returns `Ok` of the stored copyfrom field
(in particular `Ok none` when the filenode exists without copy metadata),
and errors exactly on an absent filenode, with `MissingFilenode`. -/
theorem get_file_copy_presence_never_error (idx : FilenodesIndex)
    (path : RepoPath) (node : NodeHash) :
    (∀ fn, idx path node = some fn →
      get_file_copy idx path node = Except.ok fn.copyfrom) ∧
    (∀ e, get_file_copy idx path node = Except.error e ↔
      (idx path node = none ∧ e = ErrorKind.MissingFilenode path node)) := by
  constructor
  · intro fn hfn
    unfold get_file_copy
    rw [hfn]
  · intro e
    unfold get_file_copy
    cases h : idx path node with
    | none => simp [eq_comm]
    | some fn => simp

/-- Witness for C10: a filenode present without copy metadata yields
`Ok none`. -/
theorem get_file_copy_presence_never_error_witness :
    get_file_copy (fun _ _ => some ⟨none, none, none, 5⟩) 0 1 =
      Except.ok none :=
  (get_file_copy_presence_never_error (fun _ _ => some ⟨none, none, none, 5⟩)
    0 1).1 ⟨none, none, none, 5⟩ rfl

/-- Claim C9: on every input on which upload_entry returns Err, the error
is returned before any blobstore put is issued, so the store is unchanged
by the failed call; and the failing inputs are exactly those where one of
the fallible derivations fails (hashing the content, computing the node
id, building the BlobEntry, taking the content bytes, serializing the
RawNodeBlob). -/
theorem upload_entry_error_leaves_store_unchanged (u : UploadInput) (s : Store) :
    ((upload_entry u s).1.isOk = false → (upload_entry u s).2 = s) ∧
    ((upload_entry u s).1.isOk = false ↔
      (u.hashHex = none ∨ u.nodeHex = none ∨ u.blobEntryOk = false ∨
        u.innerBytes = none ∨ u.serialized = none)) := by
  obtain ⟨hh, nh, be, ib, sr⟩ := u
  unfold upload_entry
  cases hh <;> cases nh <;> cases be <;> cases ib <;> cases sr <;>
    simp [Except.isOk, Except.toBool]

/-- Witness for C9: a call whose content cannot be hashed leaves an empty
store empty. -/
theorem upload_entry_error_leaves_store_unchanged_witness :
    (upload_entry ⟨none, some ['a'], true, some [1], some [2]⟩ []).2 =
      ([] : Store) :=
  (upload_entry_error_leaves_store_unchanged
    ⟨none, some ['a'], true, some [1], some [2]⟩ []).1 (by decide)

/-- Counterexample to C6 as stated: the importer copy_manifest_entry does
not write `sha1-<hex>`/`node:<hex>` keys.  Copying an entry with hash hex
"ab" and content sha1 hex "cd" succeeds and stores exactly the keys
`node:ab.bincode` and `sha1:cd`; the blob key is not of the form
`sha1-<hex>` and the node key is not of the form `node:<hex>`. -/
theorem copy_manifest_entry_key_layout_counterexample :
    (copy_manifest_entry ⟨['a', 'b'], some [0], ['c', 'd'], [1]⟩ []).2 =
      [(importNodeKey ['a', 'b'], [1]), (importBlobKey ['c', 'd'], [0])] ∧
    ¬ isSha1DashKey (importBlobKey ['c', 'd']) ∧
    ¬ isNodeColonKey (importNodeKey ['a', 'b']) := by
  refine ⟨rfl, ?_, ?_⟩
  · rintro ⟨hex, _, hk⟩
    rw [show importBlobKey ['c', 'd'] = ['s', 'h', 'a', '1', ':', 'c', 'd'] from rfl,
      sha1Prefix] at hk
    simp only [List.cons_append, List.nil_append, List.cons.injEq] at hk
    exact absurd hk.2.2.2.2.1 (by decide)
  · rintro ⟨hex, hhex, hk⟩
    rw [show importNodeKey ['a', 'b'] =
        ['n', 'o', 'd', 'e', ':', 'a', 'b', '.', 'b', 'i', 'n', 'c', 'o', 'd', 'e'] from rfl,
      get_node_key] at hk
    simp only [List.cons_append, List.nil_append, List.cons.injEq, true_and] at hk
    have hdot : ('.' : Char) ∈ hex := by
      rw [← hk]
      simp
    exact absurd (hhex '.' hdot) (by decide)

/-- Claim C6 (amended): BlobRepo::upload_entry stores the raw content
blob under a key of exactly the form `sha1-<hex>` and the RawNodeRecord
under a key of exactly the form `node:<hex>` (the node key per the spec's
key layout, utils.rs being outside src/); the importer's
copy_manifest_entry instead stores the node record under
`node:<hex>.bincode` and the raw blob under `sha1:<hex>`. -/
theorem writer_key_layout (u : UploadInput) (e : ImportEntryInput) (s : Store)
    (blobHash nodeid : BlobKey) (bytes ser : Bytes)
    (hbh : u.hashHex = some blobHash) (hnh : u.nodeHex = some nodeid)
    (hbe : u.blobEntryOk = true) (hib : u.innerBytes = some bytes)
    (hsr : u.serialized = some ser)
    (hhex1 : ∀ c ∈ blobHash, isHexDigit c = true)
    (hhex2 : ∀ c ∈ nodeid, isHexDigit c = true) :
    (upload_entry u s).2 =
      s ++ [(uploadContentKey blobHash, bytes), (get_node_key nodeid, ser)] ∧
    isSha1DashKey (uploadContentKey blobHash) ∧
    isNodeColonKey (get_node_key nodeid) ∧
    (∀ bytes2, e.rawContent = some bytes2 →
      (copy_manifest_entry e s).2 =
        s ++ [(importNodeKey e.hashHex, e.nodeblobBytes),
              (importBlobKey e.contentSha1Hex, bytes2)]) := by
  refine ⟨?_, ⟨blobHash, hhex1, rfl⟩, ⟨nodeid, hhex2, rfl⟩, ?_⟩
  · unfold upload_entry
    rw [hbh, hnh, hbe, hib, hsr]
    simp
  · intro bytes2 hb2
    unfold copy_manifest_entry
    rw [hb2]

/-- Witness for the amended C6: concrete successful runs of both writers
store exactly the stated keys. -/
theorem writer_key_layout_witness :
    (upload_entry ⟨some ['a', 'b'], some ['c', 'd'], true, some [1], some [2]⟩ []).2 =
      [(uploadContentKey ['a', 'b'], [1]), (get_node_key ['c', 'd'], [2])] :=
  (writer_key_layout ⟨some ['a', 'b'], some ['c', 'd'], true, some [1], some [2]⟩
    ⟨['e', 'f'], some [3], ['a', 'a'], [4]⟩ [] ['a', 'b'] ['c', 'd'] [1] [2]
    rfl rfl rfl rfl rfl (by decide) (by decide)).1

/-- Counterexample to C1 as stated: a create_changeset run in which every
sub-future of the pipeline itself succeeds but the parent's completion
signal resolved to an error fails with ParentsFailed, yet the repository
seen by readers HAS changed: the new head entry was added and the
filenode batch was inserted (the finalization fence runs before the
parent durability fence in repo.rs). -/
theorem create_changeset_failure_changes_repo :
    (create_changeset (some handleFailed) none okPipeline ⟨[], [], [], []⟩).completion =
      Except.error ErrorKind.ParentsFailed ∧
    (create_changeset (some handleFailed) none okPipeline ⟨[], [], [], []⟩).state.heads =
      [7] ∧
    (create_changeset (some handleFailed) none okPipeline ⟨[], [], [], []⟩).state.filenodes =
      [⟨none, none, none, 7⟩] ∧
    (create_changeset (some handleFailed) none okPipeline ⟨[], [], [], []⟩).state.changesets =
      [] := by
  refine ⟨rfl, rfl, rfl, rfl⟩

/-- Claim C1 (amended): a failed create_changeset never inserts a
ChangesetRecord — the changesets index is unchanged — and the blobstore
only grows (orphan blobs); moreover, when the failure occurs before the
finalization fence (entry upload, parents data, changed-files derivation
or changeset assembly), the heads and filenodes indices are unchanged as
well.  A failure at or after the fence (a fence branch failing, the
parent durability fence, or the record insert itself) can leave an added
head entry and inserted filenodes in place. -/
theorem create_changeset_failure_frame (p1 p2 : Option ChangesetHandleModel)
    (o : CommitPipeline) (s : RepoState) :
    (∃ ext, (create_changeset p1 p2 o s).state.blobs = s.blobs ++ ext) ∧
    ((create_changeset p1 p2 o s).completion.isOk = false →
      (create_changeset p1 p2 o s).state.changesets = s.changesets) ∧
    ((pre_fence_result o).isOk = false →
      (create_changeset p1 p2 o s).state.heads = s.heads ∧
      (create_changeset p1 p2 o s).state.filenodes = s.filenodes ∧
      (create_changeset p1 p2 o s).state.changesets = s.changesets ∧
      (create_changeset p1 p2 o s).state.blobs = s.blobs ++ o.entryBlobs) := by
  unfold create_changeset
  cases hpf : pre_fence_result o with
  | error e => exact ⟨⟨o.entryBlobs, rfl⟩, fun _ => rfl, fun _ => ⟨rfl, rfl, rfl, rfl⟩⟩
  | ok u =>
    have hblob : ∃ ext,
        (fence_state o { s with blobs := s.blobs ++ o.entryBlobs }).blobs =
          s.blobs ++ ext := by
      refine ⟨o.entryBlobs ++ (if o.saveResult.isOk then [(o.csBlobKey, o.csBlobBytes)] else []), ?_⟩
      simp [fence_state]
    cases hf : fence_result o with
    | error e => exact ⟨hblob, fun _ => rfl, by simp [hpf, Except.isOk, Except.toBool]⟩
    | ok v =>
      cases hpc : extract_parents_complete p1 p2 with
      | error e2 => exact ⟨hblob, fun _ => rfl, by simp [hpf, Except.isOk, Except.toBool]⟩
      | ok w =>
        cases hca : o.changesetsAddResult with
        | error e3 => exact ⟨hblob, fun _ => rfl, by simp [hpf, Except.isOk, Except.toBool]⟩
        | ok z =>
          refine ⟨hblob, ?_, by simp [hpf, Except.isOk, Except.toBool]⟩
          intro hcontra
          simp [Except.isOk, Except.toBool] at hcontra

/-- Witness for the amended C1: a failure in the entry-upload stage
leaves every index unchanged and only the already-issued entry blobs in
the blobstore. -/
theorem create_changeset_failure_frame_witness :
    (create_changeset none none
      { okPipeline with uploadEntriesResult := Except.error ErrorKind.Other }
      ⟨[], [2], [], []⟩).state.heads = [2] ∧
    (create_changeset none none
      { okPipeline with uploadEntriesResult := Except.error ErrorKind.Other }
      ⟨[], [2], [], []⟩).state.changesets = [] :=
  ⟨((create_changeset_failure_frame none none
      { okPipeline with uploadEntriesResult := Except.error ErrorKind.Other }
      ⟨[], [2], [], []⟩).2.2 (by decide)).1,
   ((create_changeset_failure_frame none none
      { okPipeline with uploadEntriesResult := Except.error ErrorKind.Other }
      ⟨[], [2], [], []⟩).2.2 (by decide)).2.2.1⟩

/-- Claim C2: in every valid schedule of the pipeline the record insert
comes after the parents-complete fence; a parent's completion error is
exactly what makes extract_parents_complete fail; when it fails the
commit's completion resolves to an error and the changesets index is
untouched; and when everything else succeeded, that error is precisely
ParentsFailed. -/
theorem record_insert_after_parents_complete (p1 p2 : Option ChangesetHandleModel)
    (o : CommitPipeline) (s : RepoState) :
    (∀ sched : List CsEvent, ValidSchedule sched →
      sched.indexOf CsEvent.parentsComplete < sched.indexOf CsEvent.recordInsert) ∧
    ((extract_parents_complete p1 p2).isOk = false ↔
      ((∃ h, p1 = some h ∧ h.completionResult.isOk = false) ∨
       (∃ h, p2 = some h ∧ h.completionResult.isOk = false))) ∧
    ((extract_parents_complete p1 p2).isOk = false →
      (create_changeset p1 p2 o s).completion.isOk = false ∧
      (create_changeset p1 p2 o s).state.changesets = s.changesets) ∧
    ((extract_parents_complete p1 p2).isOk = false →
      (pre_fence_result o).isOk = true → (fence_result o).isOk = true →
      (create_changeset p1 p2 o s).completion = Except.error ErrorKind.ParentsFailed) := by
  refine ⟨fun sched hs => hs.2 CsEvent.parentsComplete CsEvent.recordInsert rfl, ?_, ?_, ?_⟩
  · unfold extract_parents_complete parent_completion
    cases p1 with
    | none =>
      cases p2 with
      | none => simp [Except.isOk, Except.toBool, Except.bind]
      | some h2 =>
        cases hc : h2.completionResult <;>
          simp [hc, Except.isOk, Except.toBool, Except.bind, Except.map]
    | some h1 =>
      cases hc1 : h1.completionResult with
      | error e1 =>
        simp [hc1, Except.isOk, Except.toBool, Except.bind, Except.map]
      | ok v1 =>
        cases p2 with
        | none =>
          simp [hc1, Except.isOk, Except.toBool, Except.bind, Except.map]
        | some h2 =>
          cases hc2 : h2.completionResult <;>
            simp [hc1, hc2, Except.isOk, Except.toBool, Except.bind, Except.map]
  · intro hpc
    have hpcerr : ∃ e, extract_parents_complete p1 p2 = Except.error e := by
      cases hx : extract_parents_complete p1 p2 with
      | error e => exact ⟨e, rfl⟩
      | ok v => rw [hx] at hpc; simp [Except.isOk, Except.toBool] at hpc
    obtain ⟨e, he⟩ := hpcerr
    unfold create_changeset
    cases hpf : pre_fence_result o with
    | error e1 => exact ⟨rfl, rfl⟩
    | ok u =>
      cases hf : fence_result o with
      | error e2 => exact ⟨rfl, rfl⟩
      | ok v => rw [he]; exact ⟨rfl, rfl⟩
  · intro hpc hpf hf
    have hpcerr : ∃ e, extract_parents_complete p1 p2 = Except.error e := by
      cases hx : extract_parents_complete p1 p2 with
      | error e => exact ⟨e, rfl⟩
      | ok v => rw [hx] at hpc; simp [Except.isOk, Except.toBool] at hpc
    obtain ⟨e, he⟩ := hpcerr
    have hpfok : ∃ u, pre_fence_result o = Except.ok u := by
      cases hx : pre_fence_result o with
      | error e1 => rw [hx] at hpf; simp [Except.isOk, Except.toBool] at hpf
      | ok u => exact ⟨u, rfl⟩
    have hfok : ∃ v, fence_result o = Except.ok v := by
      cases hx : fence_result o with
      | error e1 => rw [hx] at hf; simp [Except.isOk, Except.toBool] at hf
      | ok v => exact ⟨v, rfl⟩
    obtain ⟨u, hu⟩ := hpfok
    obtain ⟨v, hv⟩ := hfok
    unfold create_changeset
    rw [hu, hv, he]

/-- Witness for C2: with a failed parent and an otherwise successful
pipeline the commit fails with ParentsFailed. -/
theorem record_insert_after_parents_complete_witness :
    (create_changeset (some handleFailed) none okPipeline ⟨[], [], [], []⟩).completion =
      Except.error ErrorKind.ParentsFailed :=
  (record_insert_after_parents_complete (some handleFailed) none okPipeline
    ⟨[], [], [], []⟩).2.2.2 (by decide) (by decide) (by decide)

/-- Claim C3: in every valid schedule of a completed create_changeset the
filenodes batch insert of the entry uploader's finalize comes strictly
before the ChangesetRecord insert into the changesets index (finalize
precedes the parent-ready signal, which precedes the record insert). -/
theorem finalize_before_record_insert (sched : List CsEvent)
    (hs : ValidSchedule sched) :
    sched.indexOf CsEvent.finalizeFilenodes < sched.indexOf CsEvent.recordInsert :=
  lt_trans (hs.2 CsEvent.finalizeFilenodes CsEvent.signalCanBeParent rfl)
    (hs.2 CsEvent.signalCanBeParent CsEvent.recordInsert rfl)

/-- Witness for C3: the canonical pipeline schedule is valid and places
finalize before the record insert. -/
theorem finalize_before_record_insert_witness :
    ValidSchedule pipelineSchedule ∧
    pipelineSchedule.indexOf CsEvent.finalizeFilenodes <
      pipelineSchedule.indexOf CsEvent.recordInsert :=
  ⟨by decide, finalize_before_record_insert pipelineSchedule (by decide)⟩

/-- Claim C4: in every valid schedule the can_be_parent signal fires
after the commit-blob save, the head add and the filenode finalize, and
the completion signal resolves only after the record insert; there is a
valid schedule in which the can_be_parent signal fires before the
parents-complete fence and before the record insert (so it does not wait
for them); and in the state model the signal carries exactly
`(cs_id, manifest_id)` whenever the fence completed, regardless of parent
durability or of the record insert outcome. -/
theorem can_be_parent_signal_timing (p1 p2 : Option ChangesetHandleModel)
    (o : CommitPipeline) (s : RepoState) :
    (∀ sched : List CsEvent, ValidSchedule sched →
      sched.indexOf CsEvent.saveBlob < sched.indexOf CsEvent.signalCanBeParent ∧
      sched.indexOf CsEvent.headsAdd < sched.indexOf CsEvent.signalCanBeParent ∧
      sched.indexOf CsEvent.finalizeFilenodes < sched.indexOf CsEvent.signalCanBeParent ∧
      sched.indexOf CsEvent.recordInsert < sched.indexOf CsEvent.signalCompletion) ∧
    (∃ sched : List CsEvent, ValidSchedule sched ∧
      sched.indexOf CsEvent.signalCanBeParent < sched.indexOf CsEvent.parentsComplete ∧
      sched.indexOf CsEvent.signalCanBeParent < sched.indexOf CsEvent.recordInsert) ∧
    ((pre_fence_result o).isOk = true → (fence_result o).isOk = true →
      (create_changeset p1 p2 o s).canBeParent = Except.ok (o.csId, o.manifestId)) := by
  refine ⟨?_, ⟨pipelineSchedule, by decide, by decide, by decide⟩, ?_⟩
  · intro sched hs
    exact ⟨hs.2 CsEvent.saveBlob CsEvent.signalCanBeParent rfl,
      hs.2 CsEvent.headsAdd CsEvent.signalCanBeParent rfl,
      hs.2 CsEvent.finalizeFilenodes CsEvent.signalCanBeParent rfl,
      hs.2 CsEvent.recordInsert CsEvent.signalCompletion rfl⟩
  · intro hpf hf
    have hpfok : ∃ u, pre_fence_result o = Except.ok u := by
      cases hx : pre_fence_result o with
      | error e1 => rw [hx] at hpf; simp [Except.isOk, Except.toBool] at hpf
      | ok u => exact ⟨u, rfl⟩
    have hfok : ∃ v, fence_result o = Except.ok v := by
      cases hx : fence_result o with
      | error e1 => rw [hx] at hf; simp [Except.isOk, Except.toBool] at hf
      | ok v => exact ⟨v, rfl⟩
    obtain ⟨u, hu⟩ := hpfok
    obtain ⟨v, hv⟩ := hfok
    unfold create_changeset
    rw [hu, hv]
    cases extract_parents_complete p1 p2 with
    | error e => rfl
    | ok w =>
      cases o.changesetsAddResult with
      | error e => rfl
      | ok z => rfl

/-- Witness for C4: with a failed parent the can_be_parent signal still
fires with the pair (cs_id, manifest_id) of the concrete pipeline. -/
theorem can_be_parent_signal_timing_witness :
    (create_changeset (some handleFailed) none okPipeline ⟨[], [], [], []⟩).canBeParent =
      Except.ok (7, 9) :=
  (can_be_parent_signal_timing (some handleFailed) none okPipeline
    ⟨[], [], [], []⟩).2.2 (by decide) (by decide)

/-- Helper: a successful List.lookup locates a pair of the list. -/
theorem lookup_mem {repo : CommitGraph} {a : NodeHash} {ps : List NodeHash}
    (hl : repo.lookup a = some ps) : (a, ps) ∈ repo := by
  induction repo with
  | nil => simp [List.lookup] at hl
  | cons hd tl ih =>
    obtain ⟨k, b⟩ := hd
    rw [List.lookup] at hl
    cases hk : (a == k) with
    | false =>
      rw [hk] at hl
      exact List.mem_cons_of_mem _ (ih hl)
    | true =>
      rw [hk] at hl
      cases hl
      have hke : a = k := by simpa using hk
      rw [hke]
      exact List.mem_cons_self _ _

/-- Helper: the start node of an avoid-path is not in the avoided set. -/
theorem ReachAvoid.start_not_mem {repo : CommitGraph} {seen : Finset NodeHash}
    {g x : NodeHash} (hr : ReachAvoid repo seen g x) : g ∉ seen := by
  cases hr with
  | refl g hg => exact hg
  | step g p x ps hg _ _ _ => exact hg

/-- Helper: shrinking the avoided set preserves avoid-reachability. -/
theorem ReachAvoid.mono {repo : CommitGraph} {seen : Finset NodeHash}
    {h g x : NodeHash} (hr : ReachAvoid repo (insert h seen) g x) :
    ReachAvoid repo seen g x := by
  induction hr with
  | refl g hg => exact ReachAvoid.refl g (fun hgs => hg (Finset.mem_insert_of_mem hgs))
  | step g p x ps hg hlk hp _ ih =>
    exact ReachAvoid.step g p x ps (fun hgs => hg (Finset.mem_insert_of_mem hgs)) hlk hp ih

/-- Helper: a path avoiding `seen` either ends at `h`, or continues from a
parent of `h` avoiding `insert h seen`, or never meets `h` at all. -/
theorem ReachAvoid.unfold_head {repo : CommitGraph} {seen : Finset NodeHash}
    {h : NodeHash} {ps : List NodeHash} (hps : repo.lookup h = some ps)
    {g x : NodeHash} (hr : ReachAvoid repo seen g x) :
    x = h ∨ (∃ p ∈ ps, ReachAvoid repo (insert h seen) p x) ∨
      ReachAvoid repo (insert h seen) g x := by
  induction hr with
  | refl g hg =>
    by_cases hgh : g = h
    · exact Or.inl hgh
    · refine Or.inr (Or.inr (ReachAvoid.refl g ?_))
      simp only [Finset.mem_insert, not_or]
      exact ⟨hgh, hg⟩
  | step g p x qs hg hlq hpq _ ih =>
    rcases ih with hxh | hmid | hgx
    · exact Or.inl hxh
    · exact Or.inr (Or.inl hmid)
    · by_cases hgh : g = h
      · subst hgh
        rw [hps] at hlq
        injection hlq with hqs
        subst hqs
        exact Or.inr (Or.inl ⟨p, hpq, hgx⟩)
      · refine Or.inr (Or.inr (ReachAvoid.step g p x qs ?_ hlq hpq hgx))
        simp only [Finset.mem_insert, not_or]
        exact ⟨hgh, hg⟩

/-- Helper: the BFS invariant of BlobChangesetStream.  When every node
avoid-reachable from the frontier has a stored changeset, the traversal
succeeds, yields no duplicates, yields exactly the avoid-reachable nodes,
and yields nothing from the seen set. -/
theorem bcsRun_correct (repo : CommitGraph) (frontier : List NodeHash)
    (seen : Finset NodeHash) :
    (∀ g ∈ frontier, ∀ x, ReachAvoid repo seen g x →
      (repo.lookup x).isSome = true) →
    ∃ out, bcsRun repo frontier seen = Except.ok out ∧ out.Nodup ∧
      (∀ x, x ∈ out ↔ ∃ g ∈ frontier, ReachAvoid repo seen g x) ∧
      (∀ x ∈ out, x ∉ seen) := by
  induction frontier, seen using bcsRun.induct repo with
  | case1 seen =>
    intro _
    refine ⟨[], ?_, List.nodup_nil, ?_, ?_⟩
    · simp [bcsRun]
    · intro x
      simp
    · intro x hx
      simp at hx
  | case2 seen next rest hseen ih =>
    intro hcl
    obtain ⟨out, hrun, hnd, hiff, hns⟩ :=
      ih (fun g hg x hr => hcl g (List.mem_cons_of_mem _ hg) x hr)
    refine ⟨out, ?_, hnd, ?_, hns⟩
    · simp only [bcsRun]
      rw [dif_pos hseen]
      exact hrun
    · intro x
      rw [hiff x]
      constructor
      · rintro ⟨g, hg, hr⟩
        exact ⟨g, List.mem_cons_of_mem _ hg, hr⟩
      · rintro ⟨g, hg, hr⟩
        rcases List.mem_cons.mp hg with hgn | hgr
        · subst hgn
          exact absurd hseen hr.start_not_mem
        · exact ⟨g, hgr, hr⟩
  | case3 seen next rest hseen hl =>
    intro hcl
    have hs := hcl next (List.mem_cons_self _ _) next (ReachAvoid.refl next hseen)
    rw [hl] at hs
    simp at hs
  | case4 seen next rest hseen ps hl ih =>
    intro hcl
    have hcl2 : ∀ g ∈ rest ++ ps, ∀ x, ReachAvoid repo (insert next seen) g x →
        (repo.lookup x).isSome = true := by
      intro g hg x hr
      have hr0 := hr.mono
      rcases List.mem_append.mp hg with hgr | hgp
      · exact hcl g (List.mem_cons_of_mem _ hgr) x hr0
      · exact hcl next (List.mem_cons_self _ _) x
          (ReachAvoid.step next g x ps hseen hl hgp hr0)
    obtain ⟨out, hrun, hnd, hiff, hns⟩ := ih hcl2
    refine ⟨next :: out, ?_, ?_, ?_, ?_⟩
    · simp only [bcsRun]
      rw [dif_neg hseen]
      split
      · rename_i heq
        rw [hl] at heq
        cases heq
      · rename_i ps2 heq
        rw [hl] at heq
        injection heq with hps2
        subst hps2
        rw [hrun]
        rfl
    · exact List.nodup_cons.mpr
        ⟨fun hmem => (hns next hmem) (Finset.mem_insert_self next seen), hnd⟩
    · intro x
      constructor
      · intro hx
        rcases List.mem_cons.mp hx with hxn | hxo
        · subst hxn
          exact ⟨x, List.mem_cons_self _ _, ReachAvoid.refl x hseen⟩
        · obtain ⟨g, hg, hr⟩ := (hiff x).mp hxo
          rcases List.mem_append.mp hg with hgr | hgp
          · exact ⟨g, List.mem_cons_of_mem _ hgr, hr.mono⟩
          · exact ⟨next, List.mem_cons_self _ _,
              ReachAvoid.step next g x ps hseen hl hgp hr.mono⟩
      · rintro ⟨g, hg, hr⟩
        rcases ReachAvoid.unfold_head hl hr with hxn | ⟨p, hp, hr2⟩ | hr2
        · subst hxn
          exact List.mem_cons_self _ _
        · exact List.mem_cons_of_mem _
            ((hiff x).mpr ⟨p, List.mem_append.mpr (Or.inr hp), hr2⟩)
        · rcases List.mem_cons.mp hg with hgn | hgr
          · subst hgn
            exact absurd (Finset.mem_insert_self g seen) hr2.start_not_mem
          · exact List.mem_cons_of_mem _
              ((hiff x).mpr ⟨g, List.mem_append.mpr (Or.inl hgr), hr2⟩)
    · intro x hx
      rcases List.mem_cons.mp hx with hxn | hxo
      · subst hxn
        exact hseen
      · exact fun hxs => (hns x hxo) (Finset.mem_insert_of_mem hxs)

/-- Helper: with an empty avoided set, avoid-reachability is exactly the
reflexive-transitive closure of the parent edges. -/
theorem reachAvoid_empty_iff {repo : CommitGraph} {g x : NodeHash} :
    ReachAvoid repo ∅ g x ↔ Relation.ReflTransGen (parentEdge repo) g x := by
  constructor
  · intro hr
    induction hr with
    | refl g _ => exact Relation.ReflTransGen.refl
    | step g p x ps _ hl hp _ ih => exact Relation.ReflTransGen.head ⟨ps, hl, hp⟩ ih
  · intro hr
    induction hr using Relation.ReflTransGen.head_induction_on with
    | refl => exact ReachAvoid.refl x (Finset.not_mem_empty x)
    | head hedge _ ih =>
      obtain ⟨ps, hl, hp⟩ := hedge
      exact ReachAvoid.step _ _ _ ps (Finset.not_mem_empty _) hl hp ih

/-- Helper: a key-closed graph stores a changeset for every node reachable
from the heads. -/
theorem keyClosed_lookup {repo : CommitGraph} {heads : List NodeHash}
    (hc : keyClosed repo heads = true) :
    ∀ x, reachableFromHeads repo heads x → (repo.lookup x).isSome = true := by
  rintro x ⟨g, hg, hrtg⟩
  unfold keyClosed at hc
  rw [Bool.and_eq_true, List.all_eq_true, List.all_eq_true] at hc
  induction hrtg with
  | refl => exact hc.1 g hg
  | tail _ hedge _ =>
    obtain ⟨ps, hl, hp⟩ := hedge
    have hm := lookup_mem hl
    have hall := hc.2 _ hm
    rw [List.all_eq_true] at hall
    exact hall _ hp

/-- Claim C5: for every finite stored commit graph closed under parents,
the stream of get_changesets succeeds and yields each changeset reachable
from the initial heads exactly once (the output has no duplicates, even
with diamond paths or repeated heads), the set of yielded ids is exactly
the reflexive-transitive closure of parent edges from the heads, and each
loaded changeset's parents are appended after the existing frontier
tail. -/
theorem get_changesets_stream_correct (repo : CommitGraph)
    (heads : List NodeHash) (hc : keyClosed repo heads = true) :
    ∃ out, bcsRun repo heads ∅ = Except.ok out ∧ out.Nodup ∧
      (∀ x, x ∈ out ↔ reachableFromHeads repo heads x) ∧
      (∀ next rest seen ps, next ∉ seen → repo.lookup next = some ps →
        bcsRun repo (next :: rest) seen =
          (bcsRun repo (rest ++ ps) (insert next seen)).map
            (fun out2 => next :: out2)) := by
  have hcl : ∀ g ∈ heads, ∀ x, ReachAvoid repo ∅ g x →
      (repo.lookup x).isSome = true := by
    intro g hg x hr
    exact keyClosed_lookup hc x ⟨g, hg, reachAvoid_empty_iff.mp hr⟩
  obtain ⟨out, hrun, hnd, hiff, _⟩ := bcsRun_correct repo heads ∅ hcl
  refine ⟨out, hrun, hnd, ?_, ?_⟩
  · intro x
    rw [hiff x]
    constructor
    · rintro ⟨g, hg, hr⟩
      exact ⟨g, hg, reachAvoid_empty_iff.mp hr⟩
    · rintro ⟨g, hg, hr⟩
      exact ⟨g, hg, reachAvoid_empty_iff.mpr hr⟩
  · intro next rest seen ps hns hl
    simp only [bcsRun]
    rw [dif_neg hns]
    split
    · rename_i heq
      rw [hl] at heq
      cases heq
    · rename_i ps2 heq
      rw [hl] at heq
      injection heq with hps2
      subst hps2
      rfl

/-- Witness for C5: a two-commit chain with one head is key-closed and
the theorem applies to it. -/
theorem get_changesets_stream_correct_witness :
    keyClosed [(1, [2]), (2, [])] [1] = true ∧
    ∃ out, bcsRun [(1, [2]), (2, [])] [1] ∅ = Except.ok out ∧ out.Nodup ∧
      (∀ x, x ∈ out ↔ reachableFromHeads [(1, [2]), (2, [])] [1] x) := by
  refine ⟨by decide, ?_⟩
  obtain ⟨out, h1, h2, h3, _⟩ :=
    get_changesets_stream_correct [(1, [2]), (2, [])] [1] (by decide)
  exact ⟨out, h1, h2, h3⟩

end Eden
